import Mathlib

/-!
Shallow embedding of the tag-editing component
src/chroma-ui/src/components/Explorer/Tags.tsx.

The component keeps five pieces of React state (isEditing, isUpdating,
originalTagString, tagString, tagsArray), reacts to a fixed set of UI and
upstream events, and on submit diffs the parsed edit buffer against the
parsed snapshot string, dispatching one add / remove mutation per
differing tag.  We model the component state as a structure, each event
handler as a pure state transformer that additionally returns the list of
remote requests it dispatches, and the surrounding system (component plus
outstanding remote calls) as a second layer with a reachability relation.
-/

/-- Character-level model of the JavaScript expression s.split(",") :
split at every comma, keeping empty pieces (so the empty string yields
one empty piece, and a trailing comma yields a trailing empty piece). -/
def splitCommaChars : List Char → List (List Char)
  | [] => [[]]
  | c :: rest =>
    if c = ',' then [] :: splitCommaChars rest
    else
      match splitCommaChars rest with
      | [] => [[c]]
      | p :: ps => (c :: p) :: ps

/-- Character-level model of JavaScript trim(): drop whitespace from both
ends (the claims only exercise ASCII whitespace, which Char.isWhitespace
covers). -/
def trimChars (cs : List Char) : List Char :=
  ((cs.dropWhile Char.isWhitespace).reverse.dropWhile Char.isWhitespace).reverse

/-- Model of the JavaScript expression s.split(",") as a String function. -/
def splitComma (s : String) : List String :=
  (splitCommaChars s.data).map String.mk

/-- Model of JavaScript s.trim(). -/
def trimStr (s : String) : String :=
  String.mk (trimChars s.data)

/-- Model of tagString.split(",").map(tag => tag.trim()) from onSubmitName. -/
def parseTags (s : String) : List String :=
  (splitComma s).map trimStr

/-- Model of tagStrings.join(", ") from the useEffect body. -/
def joinTags (ts : List String) : String :=
  String.intercalate ", " ts

/-- The React state of the Tags component: the five useState cells. -/
structure TagsState where
  isEditing : Bool
  isUpdating : Bool
  originalTagString : String
  tagString : String
  tagsArray : List String
deriving Repr, DecidableEq

/-- A remote mutation request, carrying the variables object
(tagName, datapointIds) passed to addTag / unTag. -/
inductive Request where
  | add (tagName : String) (datapointIds : List Int)
  | remove (tagName : String) (datapointIds : List Int)
deriving Repr, DecidableEq

/-- remove = originalTagsArray.filter(x => !newTagsArray.includes(x)). -/
def toRemove (originalTagsArray newTagsArray : List String) : List String :=
  originalTagsArray.filter (fun x => !(newTagsArray.contains x))

/-- add = newTagsArray.filter(x => !originalTagsArray.includes(x)). -/
def toAdd (originalTagsArray newTagsArray : List String) : List String :=
  newTagsArray.filter (fun x => !(originalTagsArray.contains x))

/-- keep = originalTagsArray.filter(x => newTagsArray.includes(x)); computed
by the source but never used afterwards. -/
def keepTags (originalTagsArray newTagsArray : List String) : List String :=
  originalTagsArray.filter (fun x => newTagsArray.contains x)

/-- The onSubmitName handler: leave edit mode, parse buffer and snapshot,
short-circuit when the raw strings are equal, otherwise dispatch one add
request per element of toAdd and one remove request per element of
toRemove (adds are dispatched first, as in the source) and replace
tagsArray with the parsed buffer.  Note that tagString and
originalTagString are left untouched on every path. -/
def onSubmitName (datapointId : Int) (s : TagsState) : TagsState × List Request :=
  let s1 := { s with isEditing := false }
  let newTagsArray := parseTags s.tagString
  let originalTagsArray := parseTags s.originalTagString
  if s.tagString = s.originalTagString then (s1, [])
  else
    let addReqs := (toAdd originalTagsArray newTagsArray).map
      (fun t => Request.add t [datapointId])
    let removeReqs := (toRemove originalTagsArray newTagsArray).map
      (fun t => Request.remove t [datapointId])
    ({ s1 with tagsArray := newTagsArray }, addReqs ++ removeReqs)

/-- The events the component reacts to.  upstream is the useEffect firing
because the tags prop changed (we pass the list of tag names, the source
maps tag => tag.tag.name first); click is the onClick of the viewing Box;
input is an onChange of the Textarea; submit is form submission or Enter;
blur is the onBlur of the Textarea. -/
inductive Event where
  | upstream (tags : List String)
  | click
  | input (s : String)
  | submit
  | blur
deriving Repr, DecidableEq

/-- One event-handler invocation.  The Box with the onClick handler is
rendered only while not editing, and the Textarea (onChange, onSubmit,
onKeyPress, onBlur) only while editing, so handlers of the branch that is
not rendered leave the state unchanged. -/
def step (datapointId : Int) (s : TagsState) : Event → TagsState × List Request
  | .upstream tags =>
    let allTags := joinTags tags
    ({ s with tagsArray := tags, tagString := allTags, originalTagString := allTags }, [])
  | .click =>
    if s.isEditing then (s, []) else ({ s with isEditing := true }, [])
  | .input str =>
    if s.isEditing then ({ s with tagString := str }, []) else (s, [])
  | .submit =>
    if s.isEditing then onSubmitName datapointId s else (s, [])
  | .blur =>
    if s.isEditing then
      ({ s with isEditing := false, tagString := s.originalTagString }, [])
    else (s, [])

/-- The initial values of the five useState cells. -/
def initialState : TagsState :=
  { isEditing := false, isUpdating := false, originalTagString := ""
    tagString := "", tagsArray := [] }

/-- Run a sequence of events, accumulating every dispatched request. -/
def runC (d : Int) : TagsState → List Event → TagsState × List Request
  | s, [] => (s, [])
  | s, e :: es =>
    let r1 := step d s e
    let r2 := runC d r1.1 es
    (r2.1, r1.2 ++ r2.2)

/-- States of the component reachable from the initial render. -/
inductive ReachableC (d : Int) : TagsState → Prop where
  | init : ReachableC d initialState
  | next {s : TagsState} (e : Event) : ReachableC d s → ReachableC d (step d s e).1

/-- The component together with the outstanding (dispatched, not yet
resolved) remote calls. -/
structure Sys where
  comp : TagsState
  pending : List Request
deriving Repr, DecidableEq

/-- System-level events: a UI or upstream event, or the resolution of the
outstanding call at an index, successful or failed.  The then-callbacks of
addTag and unTag in the source do nothing, so a resolution only removes
the call from the outstanding set. -/
inductive SysEvent where
  | ui (e : Event)
  | complete (i : Nat) (ok : Bool)
deriving Repr, DecidableEq

/-- One system step. -/
def sysStep (d : Int) (s : Sys) : SysEvent → Sys
  | .ui e =>
    let r := step d s.comp e
    { comp := r.1, pending := s.pending ++ r.2 }
  | .complete i _ => { comp := s.comp, pending := s.pending.eraseIdx i }

/-- The freshly mounted system: initial component state, nothing in flight. -/
def initialSys : Sys := { comp := initialState, pending := [] }

/-- Run a sequence of system events. -/
def runSys (d : Int) : Sys → List SysEvent → Sys :=
  List.foldl (sysStep d)

/-- Reachable system states. -/
inductive SysReachable (d : Int) : Sys → Prop where
  | init : SysReachable d initialSys
  | next {s : Sys} (e : SysEvent) : SysReachable d s → SysReachable d (sysStep d s e)

/-- The Spinner is rendered exactly when the viewing Box is rendered (not
editing) and isUpdating is true. -/
def spinnerShown (s : TagsState) : Bool :=
  !s.isEditing && s.isUpdating

theorem mem_toRemove {o e : List String} {x : String} :
    x ∈ toRemove o e ↔ x ∈ o ∧ x ∉ e := by
  simp [toRemove, List.mem_filter, List.elem_iff]

theorem mem_toAdd {o e : List String} {x : String} :
    x ∈ toAdd o e ↔ x ∈ e ∧ x ∉ o := by
  simp [toAdd, List.mem_filter, List.elem_iff]

theorem contains_congr_of_perm {e e2 : List String} (he : e.Perm e2) :
    ∀ x : String, e.contains x = e2.contains x := by
  intro x
  rw [Bool.eq_iff_iff]
  simp only [List.elem_iff]
  exact he.mem_iff

theorem toRemove_perm {o o2 e e2 : List String} (ho : o.Perm o2) (he : e.Perm e2) :
    (toRemove o e).Perm (toRemove o2 e2) := by
  have h1 : (toRemove o e).Perm (toRemove o2 e) := ho.filter _
  have h2 : toRemove o2 e = toRemove o2 e2 :=
    List.filter_congr (fun x _ => by rw [contains_congr_of_perm he x])
  rw [h2] at h1
  exact h1

theorem toAdd_perm {o o2 e e2 : List String} (ho : o.Perm o2) (he : e.Perm e2) :
    (toAdd o e).Perm (toAdd o2 e2) := by
  have h1 : (toAdd o e).Perm (toAdd o e2) := he.filter _
  have h2 : toAdd o e2 = toAdd o2 e2 :=
    List.filter_congr (fun x _ => by rw [contains_congr_of_perm ho x])
  rw [h2] at h1
  exact h1

/-- C1: on parsed (trimmed) tag lists, toRemove holds exactly the elements
of the original list whose text appears nowhere in the edited list, toAdd
exactly the elements of the edited list whose text appears nowhere in the
original list, membership being exact-text equality; hence the two are
disjoint, and reordering either input list permutes the outputs without
changing their elements. -/
theorem reconciler_diff_correct (original edited o2 e2 : List String) (x : String)
    (ho : original.Perm o2) (he : edited.Perm e2) :
    (x ∈ toRemove original edited ↔ x ∈ original ∧ x ∉ edited) ∧
    (x ∈ toAdd original edited ↔ x ∈ edited ∧ x ∉ original) ∧
    (x ∈ toAdd original edited → x ∉ toRemove original edited) ∧
    (toRemove original edited).Perm (toRemove o2 e2) ∧
    (toAdd original edited).Perm (toAdd o2 e2) := by
  refine ⟨mem_toRemove, mem_toAdd, ?_, toRemove_perm ho he, toAdd_perm ho he⟩
  intro hx hr
  exact (mem_toRemove.1 hr).2 (mem_toAdd.1 hx).1

theorem reconciler_diff_correct_witness :
    (("c" ∈ toRemove ["a", "b"] ["b", "c"] ↔ "c" ∈ ["a", "b"] ∧ "c" ∉ ["b", "c"]) ∧
      ("c" ∈ toAdd ["a", "b"] ["b", "c"] ↔ "c" ∈ ["b", "c"] ∧ "c" ∉ ["a", "b"]) ∧
      ("c" ∈ toAdd ["a", "b"] ["b", "c"] → "c" ∉ toRemove ["a", "b"] ["b", "c"]) ∧
      (toRemove ["a", "b"] ["b", "c"]).Perm (toRemove ["b", "a"] ["c", "b"]) ∧
      (toAdd ["a", "b"] ["b", "c"]).Perm (toAdd ["b", "a"] ["c", "b"])) :=
  reconciler_diff_correct ["a", "b"] ["b", "c"] ["b", "a"] ["c", "b"] "c"
    (by decide) (by decide)

/-- C2: submitting while the raw buffer equals the raw snapshot string
flips the mode to viewing and changes nothing else: no requests are
dispatched and tagsArray, tagString, originalTagString, isUpdating keep
their values. -/
theorem submit_noop_guard (d : Int) (s : TagsState) (hed : s.isEditing = true)
    (h : s.tagString = s.originalTagString) :
    step d s Event.submit = ({ s with isEditing := false }, []) := by
  simp [step, hed, onSubmitName, h]

theorem submit_noop_guard_witness :
    step 7 ⟨true, false, "a, b", "a, b", ["a", "b"]⟩ Event.submit
      = (⟨false, false, "a, b", "a, b", ["a", "b"]⟩, []) :=
  submit_noop_guard 7 ⟨true, false, "a, b", "a, b", ["a", "b"]⟩ rfl rfl

theorem reachableC_runC (d : Int) {s : TagsState} (evs : List Event)
    (hs : ReachableC d s) : ReachableC d (runC d s evs).1 := by
  induction evs generalizing s with
  | nil => exact hs
  | cons e es ih => exact ih (ReachableC.next e hs)

/-- C3 counterexample: start from upstream tags being the single tag a,
enter edit mode, change the buffer to a comma-b without the canonical
space, submit (the optimistic update makes tagsArray equal to the list a,
b) and click to re-enter edit mode.  In the resulting editing state the
buffer is the raw edited string, not the serialization of the canonical
set, and the snapshot string that the next submit would diff against is
still the pre-submit serialization, not the post-submit one. -/
theorem edit_entry_no_snapshot_cex :
    (runC 7 initialState
        [Event.upstream ["a"], Event.click, Event.input "a,b", Event.submit,
          Event.click]).1
      = ⟨true, false, "a", "a,b", ["a", "b"]⟩ ∧
    joinTags ["a", "b"] = "a, b" ∧
    ("a,b" : String) ≠ "a, b" ∧ ("a" : String) ≠ "a, b" := by
  decide

/-- C3 amended: entering edit mode from viewing only sets the mode flag;
the buffer keeps whatever value it had and is not re-assigned from the
canonical set; and submit never updates the snapshot string or the buffer,
so after a buffer-changing submit the snapshot keeps its pre-submit value
until the next upstream tags change. -/
theorem edit_entry_mode_only (d : Int) (s : TagsState) (hview : s.isEditing = false) :
    step d s Event.click = ({ s with isEditing := true }, []) ∧
    ((onSubmitName d s).1).originalTagString = s.originalTagString ∧
    ((onSubmitName d s).1).tagString = s.tagString := by
  refine ⟨by simp [step, hview], ?_, ?_⟩ <;>
    · unfold onSubmitName
      split <;> rfl

theorem edit_entry_mode_only_witness :
    step 7 ⟨false, false, "a", "a,b", ["a", "b"]⟩ Event.click
        = (⟨true, false, "a", "a,b", ["a", "b"]⟩, []) ∧
    ((onSubmitName 7 ⟨false, false, "a", "a,b", ["a", "b"]⟩).1).originalTagString = "a" ∧
    ((onSubmitName 7 ⟨false, false, "a", "a,b", ["a", "b"]⟩).1).tagString = "a,b" :=
  edit_entry_mode_only 7 ⟨false, false, "a", "a,b", ["a", "b"]⟩ rfl

/-- C4: submitting with a buffer different from the snapshot synchronously
leaves edit mode with tagsArray replaced by the parsed buffer (the
dispatched requests are merely outstanding), and resolving any outstanding
call, successfully or not, never changes the component state: the
optimistic update is not rolled back. -/
theorem submit_optimistic_no_rollback (d : Int) (s : TagsState) (p : List Request)
    (i : Nat) (ok : Bool) (hed : s.isEditing = true)
    (hne : s.tagString ≠ s.originalTagString) :
    (step d s Event.submit).1
        = { s with isEditing := false, tagsArray := parseTags s.tagString } ∧
    sysStep d ⟨(step d s Event.submit).1, p⟩ (SysEvent.complete i ok)
        = ⟨(step d s Event.submit).1, p.eraseIdx i⟩ := by
  constructor
  · simp [step, hed, onSubmitName, hne]
  · rfl

theorem submit_optimistic_no_rollback_witness :
    (step 7 ⟨true, false, "a", "a, b", ["a"]⟩ Event.submit).1
        = ⟨false, false, "a", "a, b", ["a", "b"]⟩ ∧
    sysStep 7 ⟨(step 7 ⟨true, false, "a", "a, b", ["a"]⟩ Event.submit).1,
          [Request.add "b" [7]]⟩ (SysEvent.complete 0 false)
        = ⟨(step 7 ⟨true, false, "a", "a, b", ["a"]⟩ Event.submit).1, []⟩ :=
  submit_optimistic_no_rollback 7 ⟨true, false, "a", "a, b", ["a"]⟩
    [Request.add "b" [7]] 0 false rfl (by decide)

/-- Invariant that does survive every step: outside edit mode, either the
buffer still equals the snapshot string, or (after a buffer-changing
submit) the canonical array equals the parse of the stored buffer. -/
def viewInv (s : TagsState) : Prop :=
  s.isEditing = false →
    s.tagString = s.originalTagString ∨ s.tagsArray = parseTags s.tagString

theorem viewInv_step (d : Int) (s : TagsState) (e : Event) (ih : viewInv s) :
    viewInv (step d s e).1 := by
  cases e with
  | upstream ts => intro _; left; rfl
  | click =>
    by_cases hed : s.isEditing
    · simpa [step, hed] using ih
    · simp [viewInv, step, hed]
  | input str =>
    by_cases hed : s.isEditing
    · simp [viewInv, step, hed]
    · simpa [step, hed] using ih
  | submit =>
    by_cases hed : s.isEditing
    · by_cases hg : s.tagString = s.originalTagString
      · simp only [step, hed, if_true]
        unfold onSubmitName
        rw [if_pos hg]
        intro _
        exact Or.inl hg
      · simp only [step, hed, if_true]
        unfold onSubmitName
        rw [if_neg hg]
        intro _
        exact Or.inr rfl
    · simpa [step, hed] using ih
  | blur =>
    by_cases hed : s.isEditing
    · intro _
      simp [step, hed]
    · simpa [step, hed] using ih

theorem viewInv_reachable {d : Int} {s : TagsState} (h : ReachableC d s) :
    viewInv s := by
  induction h with
  | init => intro _; left; rfl
  | next e _ ih => exact viewInv_step _ _ e ih

/-- C5 counterexample: the reachable trace upstream [a]; click; type the
string a comma b (no space); submit ends in viewing mode with canonical
tagsArray the two tags a and b, while the stored buffer string is the raw
edited text, different from the comma-join of the canonical array (and the
snapshot string is the stale pre-submit serialization). -/
theorem viewing_consistency_cex :
    (runC 7 initialState
        [Event.upstream ["a"], Event.click, Event.input "a,b", Event.submit]).1
      = ⟨false, false, "a", "a,b", ["a", "b"]⟩ ∧
    ReachableC 7 ⟨false, false, "a", "a,b", ["a", "b"]⟩ ∧
    joinTags ["a", "b"] = "a, b" ∧ ("a,b" : String) ≠ "a, b" := by
  refine ⟨by decide, ?_, by decide, by decide⟩
  have h := reachableC_runC 7
    [Event.upstream ["a"], Event.click, Event.input "a,b", Event.submit]
    (ReachableC.init (d := 7))
  exact (by decide :
    (runC 7 initialState
        [Event.upstream ["a"], Event.click, Event.input "a,b", Event.submit]).1
      = ⟨false, false, "a", "a,b", ["a", "b"]⟩) ▸ h

/-- C5 amended: in every reachable state outside edit mode, either the
stored buffer equals the snapshot string (both being the serialization of
the last upstream tag list), or the canonical array equals the parse of
the stored buffer; the stronger claim that the stored buffer always equals
the comma-join of the canonical array fails right after any submit whose
raw buffer differs from that join, because submit adopts the parsed buffer
as canonical but never re-serializes it. -/
theorem viewing_consistency_weak (d : Int) (s : TagsState) (h : ReachableC d s)
    (hview : s.isEditing = false) :
    s.tagString = s.originalTagString ∨ s.tagsArray = parseTags s.tagString :=
  viewInv_reachable h hview

theorem viewing_consistency_weak_witness :
    initialState.tagString = initialState.originalTagString ∨
      initialState.tagsArray = parseTags initialState.tagString :=
  viewing_consistency_weak 7 initialState ReachableC.init rfl

/-- C6: if every parsed buffer tag occurs among the parsed snapshot tags
and conversely, submit dispatches no requests at all, whether or not the
raw buffer string equals the raw snapshot string (so also when the textual
short-circuit guard does not fire). -/
theorem set_equal_submit_no_requests (d : Int) (s : TagsState)
    (h1 : (parseTags s.tagString).all
        (fun x => (parseTags s.originalTagString).contains x) = true)
    (h2 : (parseTags s.originalTagString).all
        (fun x => (parseTags s.tagString).contains x) = true) :
    (onSubmitName d s).2 = [] := by
  have hadd : toAdd (parseTags s.originalTagString) (parseTags s.tagString) = [] := by
    unfold toAdd
    refine List.filter_eq_nil_iff.2 (fun a ha => ?_)
    have hm := List.elem_iff.1 (List.all_eq_true.1 h1 a ha)
    simp [hm]
  have hrem : toRemove (parseTags s.originalTagString) (parseTags s.tagString) = [] := by
    unfold toRemove
    refine List.filter_eq_nil_iff.2 (fun a ha => ?_)
    have hm := List.elem_iff.1 (List.all_eq_true.1 h2 a ha)
    simp [hm]
  unfold onSubmitName
  split
  · rfl
  · simp [hadd, hrem]

theorem set_equal_submit_no_requests_witness :
    (onSubmitName 7 ⟨true, false, "a, b", "b, a", ["a", "b"]⟩).2 = [] :=
  set_equal_submit_no_requests 7 ⟨true, false, "a, b", "b, a", ["a", "b"]⟩
    (by decide) (by decide)

theorem splitCommaChars_ne_nil (cs : List Char) : splitCommaChars cs ≠ [] := by
  induction cs with
  | nil => simp [splitCommaChars]
  | cons c rest ih =>
    unfold splitCommaChars
    by_cases hc : c = ','
    · simp [hc]
    · simp only [hc, if_false]
      cases h : splitCommaChars rest with
      | nil => simp
      | cons p ps => simp

theorem splitCommaChars_length (cs : List Char) :
    (splitCommaChars cs).length = cs.count ',' + 1 := by
  induction cs with
  | nil => simp [splitCommaChars]
  | cons c rest ih =>
    unfold splitCommaChars
    by_cases hc : c = ','
    · subst hc
      simp [List.count_cons, ih]
    · simp only [hc, if_false]
      cases h : splitCommaChars rest with
      | nil => exact absurd h (splitCommaChars_ne_nil rest)
      | cons p ps =>
        rw [h] at ih
        simp only [List.length_cons] at ih ⊢
        rw [List.count_cons]
        simp [hc, Ne.symm hc, ih]

theorem head?_dropWhile_char (p : Char → Bool) (l : List Char) (c : Char)
    (h : (l.dropWhile p).head? = some c) : p c = false := by
  induction l with
  | nil => simp [List.dropWhile] at h
  | cons a t ih =>
    rw [List.dropWhile_cons] at h
    by_cases hp : p a
    · rw [if_pos hp] at h
      exact ih h
    · rw [if_neg hp] at h
      simp only [List.head?_cons, Option.some.injEq] at h
      rw [← h]
      exact Bool.eq_false_iff.mpr hp

theorem getLast?_dropWhile_char (p : Char → Bool) (l : List Char)
    (h : l.dropWhile p ≠ []) : (l.dropWhile p).getLast? = l.getLast? := by
  induction l with
  | nil => simp [List.dropWhile] at h
  | cons a t ih =>
    rw [List.dropWhile_cons] at h ⊢
    by_cases hp : p a
    · rw [if_pos hp] at h ⊢
      have ht : t ≠ [] := by
        intro he
        rw [he] at h
        simp [List.dropWhile] at h
      rw [ih h]
      cases t with
      | nil => exact absurd rfl ht
      | cons b t2 => rw [List.getLast?_cons_cons]
    · rw [if_neg hp]

theorem trimChars_head (cs : List Char) (c : Char)
    (h : (trimChars cs).head? = some c) : c.isWhitespace = false := by
  unfold trimChars at h
  rw [List.head?_reverse] at h
  have hne :
      ((cs.dropWhile Char.isWhitespace).reverse.dropWhile Char.isWhitespace) ≠ [] := by
    intro he
    rw [he] at h
    simp at h
  rw [getLast?_dropWhile_char _ _ hne, List.getLast?_reverse] at h
  exact head?_dropWhile_char _ _ _ h

theorem trimChars_last (cs : List Char) (c : Char)
    (h : (trimChars cs).getLast? = some c) : c.isWhitespace = false := by
  unfold trimChars at h
  rw [List.getLast?_reverse] at h
  exact head?_dropWhile_char _ _ _ h

/-- C7: parsing splits the raw buffer at every comma and trims each piece:
the parse has exactly one element per comma-separated piece, empty pieces
included (the count is the number of commas plus one, so a trailing comma,
a double comma or the empty buffer yield empty-string elements and the
result is never empty), every parsed element is whitespace-free at both
ends, and parsing is total, exercised here on the spec examples. -/
theorem parse_split_trim_total (s : String) :
    (parseTags s).length = s.data.count ',' + 1 ∧
    parseTags s ≠ [] ∧
    (∀ p ∈ parseTags s, ∀ c : Char,
      (p.data.head? = some c ∨ p.data.getLast? = some c) → c.isWhitespace = false) ∧
    parseTags " a ,  b" = ["a", "b"] ∧ parseTags "a," = ["a", ""] ∧
    parseTags "" = [""] ∧ parseTags "a,,b" = ["a", "", "b"] := by
  refine ⟨?_, ?_, ?_, by decide, by decide, by decide, by decide⟩
  · simp [parseTags, splitComma, splitCommaChars_length]
  · simp only [ne_eq, parseTags, splitComma, List.map_eq_nil_iff]
    exact splitCommaChars_ne_nil s.data
  · intro p hp c hc
    simp only [parseTags, splitComma, List.map_map, List.mem_map,
      Function.comp_apply] at hp
    obtain ⟨q, _, rfl⟩ := hp
    cases hc with
    | inl h => exact trimChars_head q c h
    | inr h => exact trimChars_last q c h

theorem runC_edit_session (d : Int) (inputs : List String) :
    ∀ s : TagsState, s.isEditing = true →
      runC d s (inputs.map Event.input ++ [Event.blur])
        = ({ s with isEditing := false, tagString := s.originalTagString }, []) := by
  induction inputs with
  | nil =>
    intro s hed
    simp [runC, step, hed]
  | cons str rest ih =>
    intro s hed
    have h1 : step d s (Event.input str) = ({ s with tagString := str }, []) := by
      simp [step, hed]
    have h2 := ih { s with tagString := str } hed
    simp only [List.map_cons, List.cons_append, runC, List.append_eq, h1, h2,
      List.nil_append]

/-- C8: an edit session of the shape click, any number of buffer edits,
blur (discard) ends back in viewing mode with the buffer reset to the
snapshot string it had at entry to edit mode, the canonical tagsArray
untouched, and zero requests dispatched. -/
theorem discard_resets_buffer (d : Int) (s : TagsState) (inputs : List String)
    (hview : s.isEditing = false) :
    runC d s (Event.click :: (inputs.map Event.input ++ [Event.blur]))
      = ({ s with isEditing := false, tagString := s.originalTagString }, []) := by
  have h1 : step d s Event.click = ({ s with isEditing := true }, []) := by
    simp [step, hview]
  have h2 := runC_edit_session d inputs { s with isEditing := true } rfl
  simp only [runC, h1, h2]
  rfl

theorem discard_resets_buffer_witness :
    runC 7 ⟨false, false, "a, b", "a, b", ["a", "b"]⟩
        (Event.click :: (["x, y"].map Event.input ++ [Event.blur]))
      = (⟨false, false, "a, b", "a, b", ["a", "b"]⟩, []) :=
  discard_resets_buffer 7 ⟨false, false, "a, b", "a, b", ["a", "b"]⟩ ["x, y"] rfl

theorem step_isUpdating (d : Int) (s : TagsState) (e : Event) :
    (step d s e).1.isUpdating = s.isUpdating := by
  cases e with
  | upstream ts => rfl
  | click => by_cases hed : s.isEditing <;> simp [step, hed]
  | input str => by_cases hed : s.isEditing <;> simp [step, hed]
  | submit =>
    by_cases hed : s.isEditing
    · simp only [step, hed, if_true]
      unfold onSubmitName
      split <;> rfl
    · simp [step, hed]
  | blur => by_cases hed : s.isEditing <;> simp [step, hed]

/-- In every reachable component state isUpdating is still false: no event
handler of the source ever calls setIsUpdating. -/
theorem isUpdating_false_reachable {d : Int} {s : TagsState}
    (h : ReachableC d s) : s.isUpdating = false := by
  induction h with
  | init => rfl
  | next e _ ih => rw [step_isUpdating]; exact ih

/-- C9: isUpdating is initialized to false and no handler ever sets it, so
the spinner stays hidden even while a dispatched call is outstanding:
after the trace upstream [a]; click; type the two tags a and b; submit,
the outstanding set holds the add request for b, yet the spinner is not
shown in the resulting viewing state. -/
theorem busy_indicator_never_shown_cex :
    runSys 7 initialSys
        [SysEvent.ui (Event.upstream ["a"]), SysEvent.ui Event.click,
          SysEvent.ui (Event.input "a, b"), SysEvent.ui Event.submit]
      = ⟨⟨false, false, "a", "a, b", ["a", "b"]⟩, [Request.add "b" [7]]⟩ ∧
    spinnerShown ⟨false, false, "a", "a, b", ["a", "b"]⟩ = false := by
  decide

/-- C10 counterexample: over the empty upstream tag list (snapshot string
empty), submitting the buffer consisting of x and a trailing comma adds
the tag x, yet dispatches no remove request at all: the trailing comma
puts the empty string into the edited list, so the empty piece of the
original is found in the edited list and survives the diff. -/
theorem empty_piece_edge_cex :
    runC 7 initialState
        [Event.upstream [], Event.click, Event.input "x,", Event.submit]
      = (⟨false, false, "", "x,", ["x", ""]⟩, [Request.add "x" [7]]) ∧
    toAdd (parseTags "") (parseTags "x,") = ["x"] ∧
    toRemove (parseTags "") (parseTags "x,") = [] := by
  decide

/-- C10 amended: the empty upstream list serializes to the empty string,
which parses to the one-element list holding the empty string; hence a
submit over the empty snapshot whose parsed buffer contains no empty piece
(for instance no trailing comma) adds at least one tag and dispatches a
remove request with the empty string as tag name, and symmetrically a
submit of the emptied buffer over a snapshot that parses without empty
pieces dispatches an add request with the empty string as tag name. -/
theorem empty_original_empty_tag_requests (d : Int) (s s2 : TagsState)
    (h1 : s.originalTagString = "")
    (h2 : "" ∉ parseTags s.tagString)
    (h3 : s2.tagString = "")
    (h4 : "" ∉ parseTags s2.originalTagString) :
    joinTags [] = "" ∧ parseTags "" = [""] ∧
    Request.remove "" [d] ∈ (onSubmitName d s).2 ∧
    toAdd (parseTags s.originalTagString) (parseTags s.tagString) ≠ [] ∧
    Request.add "" [d] ∈ (onSubmitName d s2).2 := by
  have hne : s.tagString ≠ s.originalTagString := by
    rw [h1]
    intro he
    apply h2
    rw [he]
    decide
  have hsub : (onSubmitName d s).2
      = (toAdd (parseTags s.originalTagString) (parseTags s.tagString)).map
          (fun t => Request.add t [d]) ++
        (toRemove (parseTags s.originalTagString) (parseTags s.tagString)).map
          (fun t => Request.remove t [d]) := by
    unfold onSubmitName
    rw [if_neg hne]
  have hcon : (parseTags s.tagString).contains "" = false := by
    rw [Bool.eq_false_iff]
    intro hcc
    exact h2 (List.elem_iff.1 hcc)
  have hrem : toRemove (parseTags s.originalTagString) (parseTags s.tagString)
      = [""] := by
    rw [h1]
    show toRemove [""] (parseTags s.tagString) = [""]
    unfold toRemove
    rw [List.filter_cons]
    simp [hcon]
    exact h2
  have hne2 : parseTags s.tagString ≠ [] := by
    simp only [ne_eq, parseTags, splitComma, List.map_eq_nil_iff]
    exact splitCommaChars_ne_nil _
  obtain ⟨q, qs, hq⟩ := List.exists_cons_of_ne_nil hne2
  have hqne : q ≠ "" := by
    intro he
    apply h2
    rw [hq, ← he]
    exact List.mem_cons_self q qs
  have hadd1 : toAdd (parseTags s.originalTagString) (parseTags s.tagString) ≠ [] := by
    rw [h1, hq]
    show toAdd [""] (q :: qs) ≠ []
    unfold toAdd
    rw [List.filter_cons]
    have : ([""].contains q) = false := by
      rw [Bool.eq_false_iff]
      intro hcc
      have := List.elem_iff.1 hcc
      simp at this
      exact hqne this
    simp [this]
    rw [if_neg hqne]
    simp
  have hne3 : s2.tagString ≠ s2.originalTagString := by
    rw [h3]
    intro he
    apply h4
    rw [← he]
    decide
  have hcon2 : (parseTags s2.originalTagString).contains "" = false := by
    rw [Bool.eq_false_iff]
    intro hcc
    exact h4 (List.elem_iff.1 hcc)
  have hadd2 : toAdd (parseTags s2.originalTagString) (parseTags s2.tagString)
      = [""] := by
    rw [h3]
    show toAdd (parseTags s2.originalTagString) [""] = [""]
    unfold toAdd
    rw [List.filter_cons]
    simp [hcon2]
    exact h4
  have hsub2 : (onSubmitName d s2).2
      = (toAdd (parseTags s2.originalTagString) (parseTags s2.tagString)).map
          (fun t => Request.add t [d]) ++
        (toRemove (parseTags s2.originalTagString) (parseTags s2.tagString)).map
          (fun t => Request.remove t [d]) := by
    unfold onSubmitName
    rw [if_neg hne3]
  refine ⟨by decide, by decide, ?_, hadd1, ?_⟩
  · rw [hsub, hrem]
    simp
  · rw [hsub2, hadd2]
    simp

theorem empty_original_empty_tag_requests_witness :
    joinTags [] = "" ∧ parseTags "" = [""] ∧
    Request.remove "" [7] ∈ (onSubmitName 7 ⟨true, false, "", "x", []⟩).2 ∧
    toAdd (parseTags "") (parseTags "x") ≠ [] ∧
    Request.add "" [7] ∈ (onSubmitName 7 ⟨true, false, "a", "", ["a"]⟩).2 :=
  empty_original_empty_tag_requests 7 ⟨true, false, "", "x", []⟩
    ⟨true, false, "a", "", ["a"]⟩ rfl (by decide) rfl (by decide)
